import Mathlib

/-!
Verification development for the eduson_apstore repository.

The repository consists of two Streamlit scripts:
* `Options_parser.py` — resolves a Nasdaq option contract from a compact
  option code (normalization, payload search, expiration fallback sweep);
* `Appstore_reader.py` — collects App Store customer reviews over a paged
  RSS feed.

The pure parsing/matching/searching logic of both scripts is shallowly
embedded below.  Python strings are modelled as `List Char` (ASCII-exact
for the operations used: strip / lower / split / rsplit / substring
containment), JSON payloads as the inductive `JVal`, Python dicts as
association lists in insertion order, and a Python expression that can
raise an exception is modelled with `Option` (`none` = the exception
propagates).  Network calls (`fetch_chain`, `fetch_feed`+`parse_reviews`)
are abstracted as oracle function parameters, exactly as the resolution
logic consumes them.
-/

namespace EdusonApstore

/-! ### Python string primitives (ASCII model) -/

abbrev Str := List Char

def str (s : String) : Str := s.toList

/-- ASCII model of Python whitespace (the set stripped by `str.strip()`). -/
def isSpaceChar (c : Char) : Bool :=
  c == ' ' || c == '\t' || c == '\n' || c == '\r' || c == '\x0b' || c == '\x0c'

/-- Python `s.strip()` (ASCII whitespace). -/
def pyStrip (s : Str) : Str :=
  ((s.dropWhile isSpaceChar).reverse.dropWhile isSpaceChar).reverse

/-- ASCII model of Python `str.lower()` on one character. -/
def lowerChar (c : Char) : Char :=
  match c with
  | 'A' => 'a' | 'B' => 'b' | 'C' => 'c' | 'D' => 'd' | 'E' => 'e' | 'F' => 'f'
  | 'G' => 'g' | 'H' => 'h' | 'I' => 'i' | 'J' => 'j' | 'K' => 'k' | 'L' => 'l'
  | 'M' => 'm' | 'N' => 'n' | 'O' => 'o' | 'P' => 'p' | 'Q' => 'q' | 'R' => 'r'
  | 'S' => 's' | 'T' => 't' | 'U' => 'u' | 'V' => 'v' | 'W' => 'w' | 'X' => 'x'
  | 'Y' => 'y' | 'Z' => 'z'
  | c => c

/-- Python `s.lower()` (ASCII). -/
def pyLower (s : Str) : Str := s.map lowerChar

/-- The text after the first occurrence of `sep` in `s`, or `none` when
`sep` does not occur.  `s.split(sep, 1)[-1]` is `(splitOnceAfter sep s).getD s`,
and Python's `sep in s` is `(splitOnceAfter sep s).isSome`. -/
def splitOnceAfter (sep : Str) : Str → Option Str
  | [] => if sep.isEmpty then some [] else none
  | c :: rest =>
    if sep.isPrefixOf (c :: rest) then some ((c :: rest).drop sep.length)
    else splitOnceAfter sep rest

/-- Python `sep in s` (substring containment). -/
def pyContains (sep s : Str) : Bool := (splitOnceAfter sep s).isSome

/-- The text before the first occurrence of `sep` in `s`, or `none` when
`sep` does not occur.  `s.split(sep, 1)[0]` is `(beforeFirst sep s).getD s`. -/
def beforeFirst (sep : Str) : Str → Option Str
  | [] => if sep.isEmpty then some [] else none
  | c :: rest =>
    if sep.isPrefixOf (c :: rest) then some []
    else (beforeFirst sep rest).map (c :: ·)

/-- Python `s.rstrip(c)` for a single-character strip set. -/
def rstripChar (c : Char) (s : Str) : Str :=
  (s.reverse.dropWhile (· == c)).reverse

/-- Python `s.rsplit(c, 1)[-1]` for a single-character separator: the suffix
after the last occurrence of `c`, or all of `s` when `c` is absent. -/
def afterLastChar (c : Char) (s : Str) : Str :=
  (s.reverse.takeWhile (fun d => !(d == c))).reverse

/-- The first `if` of `normalize_option_code`:

    if "://" in s:
        s = s.split("?", 1)[0].rstrip("/")
        s = s.rsplit("/", 1)[-1]
-/
def urlStep (s : Str) : Str :=
  if pyContains (str "://") s then
    afterLastChar '/' (rstripChar '/' ((beforeFirst (str "?") s).getD s))
  else s

/-- The second `if` of `normalize_option_code`:

    if "---" in s:
        s = s.split("---", 1)[-1]
-/
def dashStep (s : Str) : Str :=
  if pyContains (str "---") s then (splitOnceAfter (str "---") s).getD s
  else s

/-- `normalize_option_code` from `Options_parser.py`:

    s = option_code_or_slug_or_url.strip()
    if "://" in s: ...          (urlStep)
    if "---" in s: ...          (dashStep)
    return s.lower()
-/
def normalize_option_code (input : Str) : Str :=
  pyLower (dashStep (urlStep (pyStrip input)))

/-! ### JSON payload values and Python dict operations

A Python dict is modelled as an association list in insertion order (keys
unique in any dict the program builds).  Numbers are modelled as integers;
no claim depends on float values. -/

inductive JVal where
  | null
  | bool (b : Bool)
  | num (n : Int)
  | str (s : Str)
  | arr (xs : List JVal)
  | obj (fields : List (Str × JVal))

abbrev KV := Str × JVal

/-- Python `d.get(k)` on a dict: the stored value, or `None` when absent. -/
def objGetD (kvs : List KV) (k : Str) : JVal :=
  ((kvs.find? (fun p => p.1 == k)).map Prod.snd).getD JVal.null

/-- Python `k in d` on a dict. -/
def hasKey (kvs : List KV) (k : Str) : Bool :=
  kvs.any (fun p => p.1 == k)

/-- Python `d[k] = v`: replace in place when the key exists, else append. -/
def dSet (d : List KV) (k : Str) (v : JVal) : List KV :=
  if hasKey d k then d.map (fun p => if p.1 == k then (p.1, v) else p)
  else d ++ [(k, v)]

/-- Python `d.setdefault(k, v)`. -/
def dSetdefault (d : List KV) (k : Str) (v : JVal) : List KV :=
  if hasKey d k then d else d ++ [(k, v)]

/-- Python truthiness of a JSON value. -/
def pyTruthy : JVal → Bool
  | .null => false
  | .bool b => b
  | .num n => !(n == 0)
  | .str s => !s.isEmpty
  | .arr xs => !xs.isEmpty
  | .obj kvs => !kvs.isEmpty

def JVal.isObj : JVal → Bool
  | .obj _ => true
  | _ => false

mutual
/-- ASCII model of Python `repr()` on a JSON value (string escaping
simplified to plain single quotes; no claim exercises escaping). -/
def pyRepr : JVal → Str
  | .null => str "None"
  | .bool true => str "True"
  | .bool false => str "False"
  | .num n => (toString n).toList
  | .str s => '\'' :: (s ++ ['\''])
  | .arr xs => '[' :: (pyReprList xs ++ [']'])
  | .obj kvs => '\x7b' :: (pyReprKVs kvs ++ ['\x7d'])

def pyReprList : List JVal → Str
  | [] => []
  | [x] => pyRepr x
  | x :: y :: xs => pyRepr x ++ str ", " ++ pyReprList (y :: xs)

def pyReprKVs : List KV → Str
  | [] => []
  | [(k, v)] => pyRepr (.str k) ++ str ": " ++ pyRepr v
  | (k, v) :: q :: kvs => pyRepr (.str k) ++ str ": " ++ pyRepr v ++ str ", " ++ pyReprKVs (q :: kvs)
end

/-- Python `str()` on a JSON value: identity on strings, `repr`-like
otherwise (scalars exact; containers per `pyRepr`). -/
def pyStr : JVal → Str
  | .str s => s
  | v => pyRepr v

/-! ### `Options_parser.py`: payload searching -/

/-- The Python idiom `v or dflt`: keep `v` when truthy, else the default. -/
def orElseFalsy (v dflt : JVal) : JVal :=
  if pyTruthy v then v else dflt

/-- `iter_option_rows` from `Options_parser.py`:

    data = payload.get("data") or {}
    table = data.get("table") or {}
    rows = table.get("rows") or []
    return rows if isinstance(rows, list) else []

`none` models an `AttributeError` escaping (`.get` on a non-dict: a
non-dict `payload`, or a truthy non-dict `data`/`table` field). -/
def iter_option_rows (payload : JVal) : Option (List JVal) :=
  match payload with
  | .obj pkvs =>
    match orElseFalsy (objGetD pkvs (str "data")) (.obj []) with
    | .obj dkvs =>
      match orElseFalsy (objGetD dkvs (str "table")) (.obj []) with
      | .obj tkvs =>
        match orElseFalsy (objGetD tkvs (str "rows")) (.arr []) with
        | .arr xs => some xs
        | _ => some []
      | _ => none
    | _ => none
  | _ => none

def exp_keys : List Str :=
  [str "expirations", str "expirationDates", str "dates", str "expirationDateList"]

/-- The candidates contributed by one key of the loop body of
`extract_expirations`: a list value contributes its truthy elements as
strings; a dict value contributes its `"rows"` list the same way when
that is a list; anything else contributes nothing. -/
def candidatesOfKey (dkvs : List KV) (key : Str) : List Str :=
  match objGetD dkvs key with
  | .arr xs => (xs.filter pyTruthy).map pyStr
  | .obj vkvs =>
    match objGetD vkvs (str "rows") with
    | .arr rs => (rs.filter pyTruthy).map pyStr
    | _ => []
  | _ => []

/-- The final de-dup loop of `extract_expirations`:

    out = []; seen = set()
    for x in candidates:
        if x not in seen: out.append(x); seen.add(x)
    return out
-/
def dedupLoop (out seen : List Str) : List Str → List Str
  | [] => out
  | x :: xs =>
    if x ∈ seen then dedupLoop out seen xs
    else dedupLoop (out ++ [x]) (x :: seen) xs

/-- `extract_expirations` from `Options_parser.py`: accumulate candidates
over the four keys in order, then de-dup keeping first-seen order.
`none` models an `AttributeError` escaping (non-dict `payload`, or truthy
non-dict `data`). -/
def extract_expirations (payload : JVal) : Option (List Str) :=
  match payload with
  | .obj pkvs =>
    match orElseFalsy (objGetD pkvs (str "data")) (.obj []) with
    | .obj dkvs =>
      some (dedupLoop [] [] (exp_keys.foldl (fun acc key => acc ++ candidatesOfKey dkvs key) []))
    | _ => none
  | _ => none

def symbol_keys : List Str :=
  [str "optionSymbol", str "symbol", str "contractSymbol", str "displaySymbol"]

/-- `match_contract_dict` from `Options_parser.py`: on a non-dict, `False`;
otherwise the code (lowercased) is looked for as a substring first in the
four symbol-like fields, then in every string value of the dict. -/
def match_contract_dict (d : JVal) (option_code : Str) : Bool :=
  match d with
  | .obj kvs =>
    let code := pyLower option_code
    (symbol_keys.any fun k =>
      match objGetD kvs k with
      | .str v => pyContains code (pyLower v)
      | _ => false) ||
    (kvs.any fun p =>
      match p.2 with
      | .str v => pyContains code (pyLower v)
      | _ => false)
  | _ => false

def key_map : List (Str × Str) :=
  [(str "optionSymbol", str "option_symbol"),
   (str "symbol", str "option_symbol"),
   (str "contractSymbol", str "option_symbol"),
   (str "displaySymbol", str "option_symbol"),
   (str "bid", str "bid"),
   (str "ask", str "ask"),
   (str "last", str "last"),
   (str "lastPrice", str "last"),
   (str "lastSalePrice", str "last"),
   (str "volume", str "volume"),
   (str "openInterest", str "open_interest"),
   (str "impliedVolatility", str "iv"),
   (str "strikePrice", str "strike"),
   (str "expirationDate", str "expiration"),
   (str "expiryDate", str "expiration")]

/-- Python `v not in (None, "")`. -/
def notNoneOrEmpty : JVal → Bool
  | .null => false
  | .str s => !s.isEmpty
  | _ => true

/-- `normalize_quote_fields` from `Options_parser.py`. -/
def normalize_quote_fields (contract : List KV) : List KV :=
  let out := key_map.foldl
    (fun out kv =>
      if hasKey contract kv.1 && notNoneOrEmpty (objGetD contract kv.1) then
        dSetdefault out kv.2 (objGetD contract kv.1)
      else out)
    []
  dSet out (str "_raw") (.obj contract)

/-- One container check of `find_contract_in_payload`: if the container is
a dict matching the code, the normalized quote with its `"type"` tag. -/
def tryContainer (container : JVal) (option_code : Str) (ty : Str) : Option (List KV) :=
  match container with
  | .obj ckvs =>
    if match_contract_dict (.obj ckvs) option_code then
      some (dSet (normalize_quote_fields ckvs) (str "type") (.str ty))
    else none
  | _ => none

/-- The row loop of `find_contract_in_payload`: per row, check the
`call` sub-object, then `put`, then the row itself.  The outer `none`
models an `AttributeError` from `row.get` on a non-dict row; the inner
`Option` is the found-or-not result. -/
def findInRows (option_code : Str) : List JVal → Option (Option (List KV))
  | [] => some none
  | row :: rest =>
    match row with
    | .obj rkvs =>
      match tryContainer (objGetD rkvs (str "call")) option_code (str "call") with
      | some out => some (some out)
      | none =>
        match tryContainer (objGetD rkvs (str "put")) option_code (str "put") with
        | some out => some (some out)
        | none =>
          match tryContainer (.obj rkvs) option_code (str "unknown") with
          | some out => some (some out)
          | none => findInRows option_code rest
    | _ => none

/-- `find_contract_in_payload` from `Options_parser.py`.  Outer `none`
models an exception escaping (from `iter_option_rows` or a non-dict row);
`some none` is the Python `return None` (no match). -/
def find_contract_in_payload (payload : JVal) (option_code : Str) : Option (Option (List KV)) :=
  match iter_option_rows payload with
  | none => none
  | some rows => findInRows option_code rows

/-! ### `Options_parser.py`: `get_option_quote_by_code`

`fetch_chain` is abstracted as an oracle `fetch` from the query-parameter
dict to `Option JVal` (`none` = the request or JSON parse raised; the
underlying symbol is fixed inside the oracle, as it is in the URL).  The
`tried` counter of the source is returned alongside the result so that
the number of fallback fetch attempts is observable. -/

abbrev Params := List (Str × Str)

inductive ResolveResult where
  | found (out : List KV)
  | errNoExpirations
  | errNotFound (count : Nat)
  | raised

def param_names : List Str :=
  [str "expirationdate", str "expirationDate", str "expiryDate",
   str "date", str "expiration"]

/-- The `found.update({...})` applied to a default-chain hit. -/
def decorateDefault (found : List KV) (symbol code : Str) : List KV :=
  dSet (dSet (dSet found
    (str "underlying") (.str symbol))
    (str "option_code") (.str code))
    (str "source") (.str (str "api.nasdaq.com"))

/-- The `found2.update({...})` applied to a sweep hit. -/
def decorateSweep (found : List KV) (symbol code e pname : Str) : List KV :=
  dSet (dSet (decorateDefault found symbol code)
    (str "queried_expiration") (.str e))
    (str "queried_param") (.str pname)

/-- The inner `for pname in param_names` loop of the fallback sweep.
`tried` is incremented once per attempt; a fetch that raises
(`fetch ... = none`) is skipped (`except Exception: continue`); an
exception escaping from `find_contract_in_payload` is NOT caught by the
source's `try` (it wraps only `fetch_chain`) and aborts as `raised`. -/
def sweep_inner (fetch : Params → Option JVal) (code symbol e : Str) :
    List Str → Nat → Option ResolveResult × Nat
  | [], tried => (none, tried)
  | pname :: pnames, tried =>
    let tried' := tried + 1
    match fetch [(pname, e)] with
    | none => sweep_inner fetch code symbol e pnames tried'
    | some payload2 =>
      match find_contract_in_payload payload2 code with
      | none => (some .raised, tried')
      | some (some f) => (some (.found (decorateSweep f symbol code e pname)), tried')
      | some none => sweep_inner fetch code symbol e pnames tried'

/-- The outer `for exp in expirations` loop of the fallback sweep. -/
def sweep_outer (fetch : Params → Option JVal) (code symbol : Str) :
    List Str → Nat → Option ResolveResult × Nat
  | [], tried => (none, tried)
  | e :: es, tried =>
    match sweep_inner fetch code symbol e param_names tried with
    | (some r, t) => (some r, t)
    | (none, t) => sweep_outer fetch code symbol es t

/-- `get_option_quote_by_code` from `Options_parser.py` (the `log_fn`
side effect is dropped; the second component is the final value of the
source's `tried` counter, 0 when the sweep never runs). -/
def get_option_quote_by_code (fetch : Params → Option JVal) (symbol0 code0 : Str) :
    ResolveResult × Nat :=
  let symbol := pyStrip (pyLower symbol0)
  let code := normalize_option_code code0
  match fetch [] with
  | none => (.raised, 0)
  | some payload =>
    match find_contract_in_payload payload code with
    | none => (.raised, 0)
    | some (some found) => (.found (decorateDefault found symbol code), 0)
    | some none =>
      match extract_expirations payload with
      | none => (.raised, 0)
      | some exps =>
        if exps.isEmpty then (.errNoExpirations, 0)
        else
          match sweep_outer fetch code symbol exps 0 with
          | (some r, t) => (r, t)
          | (none, t) => (.errNotFound exps.length, t)

/-! ### `Appstore_reader.py`: `collect_reviews`

`fetch_feed` + `parse_reviews` are abstracted as an oracle `feed` from
the (1-based) page number to the list of parseable review rows of that
page; the row type is abstract.  The loop:

    collected = []; page = 1
    while len(collected) < max_reviews:
        rows = parse_reviews(fetch_feed(app_id, page), app_id)
        if not rows: break
        for r in rows:
            if len(collected) >= max_reviews: break
            collected.append(r)
        page += 1
        if page > 50: break
    return collected

The second component of the result is the number of pages fetched (the
highest page number fetched; pages are fetched consecutively from 1). -/

def collect_go {α : Type} (feed : Nat → List α) (max_reviews : Nat)
    (collected : List α) (page : Nat) : List α × Nat :=
  if collected.length < max_reviews then
    if (feed page).isEmpty then (collected, page)
    else
      if h : page + 1 > 50 then
        (collected ++ (feed page).take (max_reviews - collected.length), page)
      else
        collect_go feed max_reviews
          (collected ++ (feed page).take (max_reviews - collected.length)) (page + 1)
  else (collected, page - 1)
termination_by 50 - page
decreasing_by omega

def collect_reviews {α : Type} (feed : Nat → List α) (max_reviews : Nat) :
    List α × Nat :=
  collect_go feed max_reviews [] 1

/-! ### The Code Decoder (spec §4.2)

No decoder exists in the repository sources; only the spec describes it. -/

inductive Side where
  | CALL
  | PUT
deriving DecidableEq

structure ParsedCode where
  year : Nat
  month : Nat
  day : Nat
  side : Side
  strike_thousandths : Nat
deriving DecidableEq

def isDigitChar (c : Char) : Bool := '0' ≤ c && c ≤ '9'

def digitVal (c : Char) : Nat := c.toNat - 48

def digitsToNat (l : Str) : Nat := l.foldl (fun a c => 10 * a + digitVal c) 0

/-- Modelled from the spec: the Code Decoder of spec §4.2, absent from the
sources.  A normalized code must match `^\d{6}[cp]\d{8}$`; the first two
digits are the year offset from 2000, the next two the month, the next
two the day, `c` means CALL and `p` means PUT, and the trailing 8 digits
are an integer number of currency-thousandths. -/
def decode_option_code (s : Str) : Option ParsedCode :=
  match s with
  | [y1, y2, mo1, mo2, d1, d2, sc, k1, k2, k3, k4, k5, k6, k7, k8] =>
    if (isDigitChar y1 && isDigitChar y2 && isDigitChar mo1 && isDigitChar mo2 &&
        isDigitChar d1 && isDigitChar d2 &&
        isDigitChar k1 && isDigitChar k2 && isDigitChar k3 && isDigitChar k4 &&
        isDigitChar k5 && isDigitChar k6 && isDigitChar k7 && isDigitChar k8) &&
       (sc == 'c' || sc == 'p') then
      some ⟨2000 + digitsToNat [y1, y2],
            digitsToNat [mo1, mo2],
            digitsToNat [d1, d2],
            if sc == 'c' then .CALL else .PUT,
            digitsToNat [k1, k2, k3, k4, k5, k6, k7, k8]⟩
    else none
  | _ => none

/-- The decimal strike of spec §4.2: thousandths divided by 1000. -/
def ParsedCode.strike (p : ParsedCode) : ℚ := (p.strike_thousandths : ℚ) / 1000

/-! ### Supporting lemmas: substring search -/

theorem splitOnceAfter_decomp {sep s t : Str} (h : splitOnceAfter sep s = some t) :
    ∃ p, s = p ++ sep ++ t := by
  induction s with
  | nil =>
    simp only [splitOnceAfter] at h
    split at h
    · rename_i hsep
      rw [List.isEmpty_iff] at hsep
      obtain rfl : ([] : Str) = t := by injection h
      exact ⟨[], by simp [hsep]⟩
    · exact absurd h (by simp)
  | cons c rest ih =>
    simp only [splitOnceAfter] at h
    split at h
    · rename_i hpre
      obtain ⟨u, hu⟩ := List.isPrefixOf_iff_prefix.mp hpre
      obtain rfl : (c :: rest).drop sep.length = t := by injection h
      refine ⟨[], ?_⟩
      rw [List.nil_append, ← hu, List.drop_left]
    · obtain ⟨p, hp⟩ := ih h
      exact ⟨c :: p, by rw [hp]; simp⟩

theorem splitOnceAfter_isSome {sep : Str} (hsep : sep ≠ []) (p t : Str) :
    (splitOnceAfter sep (p ++ sep ++ t)).isSome = true := by
  induction p with
  | nil =>
    obtain ⟨c, sep', rfl⟩ := List.exists_cons_of_ne_nil hsep
    rw [List.nil_append, List.cons_append]
    simp only [splitOnceAfter]
    rw [if_pos]
    · rfl
    · exact List.isPrefixOf_iff_prefix.mpr (by rw [← List.cons_append]; exact List.prefix_append _ _)
  | cons d p' ih =>
    rw [List.append_assoc, List.cons_append]
    simp only [splitOnceAfter]
    split
    · rfl
    · rw [← List.append_assoc]; exact ih

theorem splitOnceAfter_firstSplit {sep : Str} (hsep : sep ≠ []) :
    ∀ (pre post : Str),
      (∀ n, n < pre.length → sep.isPrefixOf ((pre ++ sep ++ post).drop n) = false) →
      splitOnceAfter sep (pre ++ sep ++ post) = some post := by
  intro pre
  induction pre with
  | nil =>
    intro post _
    obtain ⟨c, sep', rfl⟩ := List.exists_cons_of_ne_nil hsep
    rw [List.nil_append, List.cons_append]
    simp only [splitOnceAfter]
    rw [if_pos]
    · rw [← List.cons_append, List.drop_left]
    · exact List.isPrefixOf_iff_prefix.mpr (by rw [← List.cons_append]; exact List.prefix_append _ _)
  | cons d pre' ih =>
    intro post hmin
    have h0 := hmin 0 (by simp)
    simp only [List.drop_zero, List.cons_append, List.append_assoc] at h0
    have hrest : ∀ n, n < pre'.length →
        sep.isPrefixOf ((pre' ++ sep ++ post).drop n) = false := by
      intro n hn
      have h1 := hmin (n + 1) (by simpa using hn)
      simpa [List.cons_append, List.append_assoc, List.drop_succ_cons] using h1
    have hmain := ih post hrest
    simp only [List.cons_append, List.append_assoc, splitOnceAfter]
    rw [if_neg (by simp [h0])]
    simpa [List.append_assoc] using hmain

/-- The position-minimal decomposition of `s` around `sep`: `pre` is the
text before the first occurrence of `sep` and `post` the text after it. -/
def isFirstSplit (sep s pre post : Str) : Prop :=
  s = pre ++ sep ++ post ∧ ∀ n, n < pre.length → sep.isPrefixOf (s.drop n) = false

theorem pyContains_append {sep : Str} (hsep : sep ≠ []) (pre w : Str)
    (h : pyContains sep w = true) : pyContains sep (pre ++ w) = true := by
  unfold pyContains at h ⊢
  rw [Option.isSome_iff_exists] at h
  obtain ⟨t, ht⟩ := h
  obtain ⟨p, rfl⟩ := splitOnceAfter_decomp ht
  rw [show pre ++ (p ++ sep ++ t) = (pre ++ p) ++ sep ++ t by simp]
  exact splitOnceAfter_isSome hsep _ _

/-! ### Supporting lemmas: lowercasing -/

theorem lowerChar_lowerChar (c : Char) : lowerChar (lowerChar c) = lowerChar c := by
  generalize hd : lowerChar c = d
  unfold lowerChar at hd
  split at hd <;> subst hd <;>
    first
      | rfl
      | (unfold lowerChar; split <;> first | contradiction | rfl)

theorem pyLower_pyLower (s : Str) : pyLower (pyLower s) = pyLower s := by
  unfold pyLower
  rw [List.map_map]
  exact List.map_congr_left (fun c _ => by simpa using lowerChar_lowerChar c)

theorem lowerChar_eq_colon {c : Char} (h : lowerChar c = ':') : c = ':' := by
  unfold lowerChar at h
  split at h <;> first | exact absurd h (by decide) | exact h

theorem lowerChar_eq_slash {c : Char} (h : lowerChar c = '/') : c = '/' := by
  unfold lowerChar at h
  split at h <;> first | exact absurd h (by decide) | exact h

theorem slash_mem_of_mem_pyLower {s : Str} (h : '/' ∈ pyLower s) : '/' ∈ s := by
  unfold pyLower at h
  obtain ⟨c, hc, hlc⟩ := List.mem_map.mp h
  rwa [lowerChar_eq_slash hlc] at hc

/-- A character of the scheme delimiter is only produced by `lowerChar`
from itself. -/
theorem lowerChar_fixes_scheme :
    ∀ c ∈ str "://", ∀ d : Char, lowerChar d = c → d = c := by
  intro c hc d hd
  have : c = ':' ∨ c = '/' ∨ c = '/' ∨ c ∈ ([] : Str) := by simpa [str] using hc
  rcases this with rfl | rfl | rfl | h
  · exact lowerChar_eq_colon hd
  · exact lowerChar_eq_slash hd
  · exact lowerChar_eq_slash hd
  · simp at h

theorem isPrefixOf_of_isPrefixOf_pyLower {sep : Str}
    (hfix : ∀ c ∈ sep, ∀ d : Char, lowerChar d = c → d = c) :
    ∀ w : Str, sep.isPrefixOf (pyLower w) = true → sep.isPrefixOf w = true := by
  induction sep with
  | nil => intro w _; simp [List.isPrefixOf]
  | cons c sep' ih =>
    intro w h
    cases w with
    | nil => simp [pyLower, List.isPrefixOf] at h
    | cons d w' =>
      simp only [pyLower, List.map_cons, List.isPrefixOf, Bool.and_eq_true, beq_iff_eq] at h ⊢
      obtain ⟨hcd, hrest⟩ := h
      refine ⟨(hfix c (by simp) d hcd.symm).symm, ?_⟩
      exact ih (fun x hx => hfix x (by simp [hx]) ) w' hrest

theorem pyContains_of_pyContains_pyLower {sep : Str} (hsep : sep ≠ [])
    (hfix : ∀ c ∈ sep, ∀ d : Char, lowerChar d = c → d = c) :
    ∀ w : Str, pyContains sep (pyLower w) = true → pyContains sep w = true := by
  intro w
  induction w with
  | nil =>
    intro h
    obtain ⟨c, sep', rfl⟩ := List.exists_cons_of_ne_nil hsep
    simp [pyContains, pyLower, splitOnceAfter] at h
  | cons d w' ih =>
    intro h
    simp only [pyContains, pyLower, List.map_cons, splitOnceAfter] at h
    split at h
    · rename_i hpre
      have hp : (sep.isPrefixOf (d :: w')) = true := by
        have := isPrefixOf_of_isPrefixOf_pyLower hfix (d :: w')
        simpa [pyLower] using this hpre
      obtain ⟨u, hu⟩ := List.isPrefixOf_iff_prefix.mp hp
      have : d :: w' = [] ++ sep ++ u := by simp [hu]
      rw [show pyContains sep (d :: w') = (splitOnceAfter sep (d :: w')).isSome from rfl, this]
      exact splitOnceAfter_isSome hsep _ _
    · have hw : pyContains sep (pyLower w') = true := by
        simpa [pyContains, pyLower] using h
      have := ih hw
      unfold pyContains at this ⊢
      rw [Option.isSome_iff_exists] at this
      obtain ⟨t, ht⟩ := this
      obtain ⟨p, hp⟩ := splitOnceAfter_decomp ht
      rw [show d :: w' = (d :: p) ++ sep ++ t by simp [hp]]
      exact splitOnceAfter_isSome hsep _ _

theorem not_mem_afterLastChar (c : Char) (s : Str) : c ∉ afterLastChar c s := by
  unfold afterLastChar
  intro h
  rw [List.mem_reverse] at h
  have := List.mem_takeWhile_imp h
  simp at this

/-- `dashStep` either leaves the string alone or returns a suffix cut
after an occurrence of `"---"`. -/
theorem dashStep_cases (s : Str) :
    dashStep s = s ∨ ∃ p, s = p ++ str "---" ++ dashStep s := by
  unfold dashStep
  split
  · rename_i hd
    unfold pyContains at hd
    rw [Option.isSome_iff_exists] at hd
    obtain ⟨t, ht⟩ := hd
    rw [ht, Option.getD_some]
    exact Or.inr (splitOnceAfter_decomp ht)
  · exact Or.inl rfl

theorem mem_of_mem_dashStep {c : Char} {s : Str} (h : c ∈ dashStep s) : c ∈ s := by
  rcases dashStep_cases s with heq | ⟨p, hp⟩
  · rwa [heq] at h
  · rw [hp]; simp [h]

theorem pyContains_dashStep {sep : Str} (hsep : sep ≠ []) {s : Str}
    (h : pyContains sep (dashStep s) = true) : pyContains sep s = true := by
  rcases dashStep_cases s with heq | ⟨p, hp⟩
  · rwa [heq] at h
  · rw [hp, List.append_assoc]
    exact pyContains_append hsep _ _ (pyContains_append hsep _ _ h)

/-- The output of the normalizer never contains the scheme delimiter. -/
theorem normalize_no_scheme (x : Str) :
    pyContains (str "://") (normalize_option_code x) = false := by
  have hsep : str "://" ≠ [] := by decide
  by_contra hcon
  rw [Bool.not_eq_false] at hcon
  unfold normalize_option_code at hcon
  by_cases h1 : pyContains (str "://") (pyStrip x) = true
  · have hu : urlStep (pyStrip x) =
        afterLastChar '/' (rstripChar '/' ((beforeFirst (str "?") (pyStrip x)).getD (pyStrip x))) := by
      unfold urlStep
      rw [if_pos h1]
    have hslash : '/' ∈ pyLower (dashStep (urlStep (pyStrip x))) := by
      unfold pyContains at hcon
      rw [Option.isSome_iff_exists] at hcon
      obtain ⟨t, ht⟩ := hcon
      obtain ⟨p, hp⟩ := splitOnceAfter_decomp ht
      rw [hp]
      simp [str]
    have hmem : '/' ∈ urlStep (pyStrip x) :=
      mem_of_mem_dashStep (slash_mem_of_mem_pyLower hslash)
    rw [hu] at hmem
    exact not_mem_afterLastChar '/' _ hmem
  · have hu : urlStep (pyStrip x) = pyStrip x := by
      unfold urlStep
      rw [if_neg h1]
    rw [hu] at hcon
    have hcs : pyContains (str "://") (pyStrip x) = true :=
      pyContains_dashStep hsep
        (pyContains_of_pyContains_pyLower hsep lowerChar_fixes_scheme _ hcon)
    exact h1 hcs

/-! ### Claim C1 -/

/-- C1 counterexample: the claim says the normalizer takes the substring
after the LAST occurrence of `"---"`, which would give `"c"` here; the
code cuts after the FIRST occurrence (`split("---", 1)[-1]`) and yields
`"b---c"`. -/
theorem C1_counterexample :
    normalize_option_code (str "http://x.com/a---b---c") = str "b---c" ∧
      str "b---c" ≠ str "c" := by decide

/-- C1 (amended): strip whitespace; when the string contains the scheme
delimiter, drop the query string and trailing slash and take the final
path segment; when the (resulting) string splits as
`pre ++ "---" ++ post` around the FIRST occurrence of `"---"`, the output
is the lowercased `post`.  First conjunct: non-URL inputs (stated for
whitespace-stripped inputs, as the strip step fixes them); second
conjunct: URL inputs, where the split applies to the final path
segment. -/
theorem C1_normalize_first_sep :
    (∀ s pre post : Str, pyStrip s = s → pyContains (str "://") s = false →
      isFirstSplit (str "---") s pre post → normalize_option_code s = pyLower post) ∧
    (∀ s pre post : Str, pyStrip s = s → pyContains (str "://") s = true →
      isFirstSplit (str "---")
        (afterLastChar '/' (rstripChar '/' ((beforeFirst (str "?") s).getD s))) pre post →
      normalize_option_code s = pyLower post) := by
  constructor
  · intro s pre post hstrip hscheme hsplit
    obtain ⟨hdecomp, hmin⟩ := hsplit
    have hs : splitOnceAfter (str "---") s = some post := by
      rw [hdecomp]
      apply splitOnceAfter_firstSplit (by decide) pre post
      intro n hn
      have h := hmin n hn
      rwa [hdecomp] at h
    unfold normalize_option_code
    rw [hstrip]
    have hu : urlStep s = s := by
      unfold urlStep; rw [if_neg (by simp [hscheme])]
    rw [hu]
    unfold dashStep
    rw [if_pos (by simp [pyContains, hs]), hs, Option.getD_some]
  · intro s pre post hstrip hscheme hsplit
    obtain ⟨hdecomp, hmin⟩ := hsplit
    have hs : splitOnceAfter (str "---")
        (afterLastChar '/' (rstripChar '/' ((beforeFirst (str "?") s).getD s))) = some post := by
      rw [hdecomp]
      apply splitOnceAfter_firstSplit (by decide) pre post
      intro n hn
      have h := hmin n hn
      rwa [hdecomp] at h
    unfold normalize_option_code
    rw [hstrip]
    have hu : urlStep s =
        afterLastChar '/' (rstripChar '/' ((beforeFirst (str "?") s).getD s)) := by
      unfold urlStep; rw [if_pos hscheme]
    rw [hu]
    unfold dashStep
    rw [if_pos (by simp [pyContains, hs]), hs, Option.getD_some]

/-- Witness for C1 (amended): both conjuncts at concrete inputs. -/
theorem C1_normalize_first_sep_witness :
    normalize_option_code (str "x---y---z") = pyLower (str "y---z") ∧
      normalize_option_code (str "http://a/b---c---d") = pyLower (str "c---d") :=
  ⟨C1_normalize_first_sep.1 (str "x---y---z") (str "x") (str "y---z")
      (by decide) (by decide) ⟨by decide, by decide⟩,
   C1_normalize_first_sep.2 (str "http://a/b---c---d") (str "b") (str "c---d")
      (by decide) (by decide) ⟨by decide, by decide⟩⟩

/-! ### Claim C8 -/

/-- C8 counterexample: normalization is not idempotent.  The input
`"a--- b"` normalizes to `" b"` (the space after `"---"` survives, and
strip only runs first), and a second normalization strips it to `"b"`. -/
theorem C8_counterexample :
    normalize_option_code (normalize_option_code (str "a--- b")) ≠
      normalize_option_code (str "a--- b") := by decide

/-- C8 (amended): `normalize_option_code` maps `"amd271217c00370000"` to
itself, and it is idempotent on every input whose normalized form has no
leading/trailing whitespace and no remaining `"---"` separator (the two
conditions the counterexamples show are necessary; a scheme delimiter
never survives normalization, by `normalize_no_scheme`). -/
theorem C8_normalize_idem :
    normalize_option_code (str "amd271217c00370000") = str "amd271217c00370000" ∧
    ∀ x : Str, pyStrip (normalize_option_code x) = normalize_option_code x →
      pyContains (str "---") (normalize_option_code x) = false →
      normalize_option_code (normalize_option_code x) = normalize_option_code x := by
  refine ⟨by decide, ?_⟩
  intro x h1 h2
  have hscheme := normalize_no_scheme x
  set y := normalize_option_code x with hy
  have hu : urlStep y = y := by
    unfold urlStep; rw [if_neg (by simp [hscheme])]
  have hd : dashStep y = y := by
    unfold dashStep; rw [if_neg (by simp [h2])]
  show pyLower (dashStep (urlStep (pyStrip y))) = y
  rw [h1, hu, hd, hy]
  show pyLower (pyLower (dashStep (urlStep (pyStrip x)))) =
    pyLower (dashStep (urlStep (pyStrip x)))
  exact pyLower_pyLower _

/-- Witness for C8 (amended). -/
theorem C8_normalize_idem_witness :
    normalize_option_code (normalize_option_code (str "abc")) =
      normalize_option_code (str "abc") :=
  C8_normalize_idem.2 (str "abc") (by decide) (by decide)

/-! ### Claim C2 -/

theorem sweep_inner_miss (fetch : Params → Option JVal) (code symbol e : Str)
    (h0 : ∀ ps, (fetch ps).isSome = true)
    (h1 : ∀ ps p, fetch ps = some p → find_contract_in_payload p code = some none) :
    ∀ (pnames : List Str) (tried : Nat),
      sweep_inner fetch code symbol e pnames tried = (none, tried + pnames.length) := by
  intro pnames
  induction pnames with
  | nil => intro tried; simp [sweep_inner]
  | cons pn pns ih =>
    intro tried
    obtain ⟨p, hp⟩ := Option.isSome_iff_exists.mp (h0 [(pn, e)])
    simp only [sweep_inner, hp, h1 [(pn, e)] p hp, ih]
    simp only [Prod.mk.injEq, List.length_cons]
    exact ⟨trivial, by omega⟩

theorem sweep_outer_miss (fetch : Params → Option JVal) (code symbol : Str)
    (h0 : ∀ ps, (fetch ps).isSome = true)
    (h1 : ∀ ps p, fetch ps = some p → find_contract_in_payload p code = some none) :
    ∀ (es : List Str) (tried : Nat),
      sweep_outer fetch code symbol es tried =
        (none, tried + es.length * param_names.length) := by
  intro es
  induction es with
  | nil => intro tried; simp [sweep_outer]
  | cons e es ih =>
    intro tried
    simp only [sweep_outer, sweep_inner_miss fetch code symbol e h0 h1, ih]
    simp only [Prod.mk.injEq, List.length_cons]
    exact ⟨trivial, by ring⟩

/-- C2: with a fetch oracle that always returns a payload in which the
contract is not found, a default payload whose expirations list has
length 3, and the code's 5 candidate parameter names, the resolver
performs exactly 15 = 3 × 5 fallback fetch attempts (at most 15, the
default fetch excluded) and fails with the not-found error reporting 3,
the number of expiration candidates. -/
theorem C2_sweep_bound (fetch : Params → Option JVal) (symbol0 code0 : Str)
    (dflt : JVal) (exps : List Str)
    (h0 : ∀ ps, (fetch ps).isSome = true)
    (h1 : ∀ ps p, fetch ps = some p →
      find_contract_in_payload p (normalize_option_code code0) = some none)
    (h2 : fetch [] = some dflt)
    (h3 : extract_expirations dflt = some exps)
    (h4 : exps.length = 3) :
    get_option_quote_by_code fetch symbol0 code0 = (.errNotFound 3, 15) := by
  have hne : exps.isEmpty = false := by
    cases exps with
    | nil => simp at h4
    | cons a l => rfl
  simp only [get_option_quote_by_code, h2, h1 [] dflt h2, h3, hne, Bool.false_eq_true,
    if_neg, sweep_outer_miss fetch (normalize_option_code code0) _ h0 h1, h4]
  rfl

/-- The concrete fetch oracle for the C2 witness: a constant payload with
an empty rows table and three expirations. -/
def examplePayload3 : JVal :=
  .obj [(str "data", .obj
    [(str "table", .obj [(str "rows", .arr [])]),
     (str "expirations", .arr [.str (str "a"), .str (str "b"), .str (str "c")])])]

/-- Witness for C2. -/
theorem C2_sweep_bound_witness :
    get_option_quote_by_code (fun _ => some examplePayload3) (str "amd")
      (str "271217c00370000") = (.errNotFound 3, 15) :=
  C2_sweep_bound (fun _ => some examplePayload3) (str "amd") (str "271217c00370000")
    examplePayload3 [str "a", str "b", str "c"]
    (fun _ => rfl)
    (fun ps p h => by injection h with h; rw [← h]; rfl)
    rfl rfl rfl

/-! ### Claim C6 -/

theorem find_contract_empty_obj (code : Str) :
    find_contract_in_payload (.obj []) code = some none := rfl

theorem sweep_inner_congr (fetch fetch' : Params → Option JVal) (code symbol : Str)
    (h : ∀ ps, fetch' ps = some ((fetch ps).getD (JVal.obj []))) :
    ∀ (e : Str) (pnames : List Str) (tried : Nat),
      sweep_inner fetch code symbol e pnames tried =
        sweep_inner fetch' code symbol e pnames tried := by
  intro e pnames
  induction pnames with
  | nil => intro tried; rfl
  | cons pn pns ih =>
    intro tried
    cases hf : fetch [(pn, e)] with
    | none =>
      have hf' : fetch' [(pn, e)] = some (JVal.obj []) := by rw [h, hf]; rfl
      simp only [sweep_inner, hf, hf', find_contract_empty_obj, ih]
    | some p =>
      have hf' : fetch' [(pn, e)] = some p := by rw [h, hf]; rfl
      simp only [sweep_inner, hf, hf']
      cases find_contract_in_payload p code with
      | none => rfl
      | some r => cases r with
        | none => exact ih _
        | some f => rfl

/-- C6: a fallback fetch attempt that raises a transport or parse error
(`fetch ... = none`) is skipped: it consumes exactly one attempt and the
sweep continues with the remaining parameter names unchanged (first
conjunct), and the whole sweep behaves — in result and in attempt
count — exactly as if the erroring attempts had returned an empty
payload with no matching rows (second conjunct): the failure is treated
as a non-match, never retried, and never aborts the sweep. -/
theorem C6_error_skipped :
    (∀ (fetch : Params → Option JVal) (code symbol e pn : Str) (pns : List Str)
        (tried : Nat),
      fetch [(pn, e)] = none →
      sweep_inner fetch code symbol e (pn :: pns) tried =
        sweep_inner fetch code symbol e pns (tried + 1)) ∧
    (∀ (fetch fetch' : Params → Option JVal) (code symbol : Str),
      (∀ ps, fetch' ps = some ((fetch ps).getD (JVal.obj []))) →
      ∀ (es : List Str) (tried : Nat),
        sweep_outer fetch code symbol es tried =
          sweep_outer fetch' code symbol es tried) := by
  constructor
  · intro fetch code symbol e pn pns tried hf
    simp only [sweep_inner, hf]
  · intro fetch fetch' code symbol h es
    induction es with
    | nil => intro tried; rfl
    | cons e es ih =>
      intro tried
      simp only [sweep_outer, ← sweep_inner_congr fetch fetch' code symbol h e]
      cases sweep_inner fetch code symbol e param_names tried with
      | mk r t =>
        cases r with
        | none => exact ih t
        | some v => rfl

/-- Witness for C6: a fetch oracle that always raises. -/
theorem C6_error_skipped_witness :
    (sweep_inner (fun _ => none) (str "x") (str "amd") (str "e") [str "date"] 0 =
      sweep_inner (fun _ => none) (str "x") (str "amd") (str "e") [] 1) ∧
    (sweep_outer (fun _ => none) (str "x") (str "amd") [str "e"] 0 =
      sweep_outer (fun _ => some (JVal.obj [])) (str "x") (str "amd") [str "e"] 0) :=
  ⟨C6_error_skipped.1 (fun _ => none) (str "x") (str "amd") (str "e") (str "date") [] 0 rfl,
   C6_error_skipped.2 (fun _ => none) (fun _ => some (JVal.obj [])) (str "x") (str "amd")
     (fun _ => rfl) [str "e"] 0⟩

/-! ### Claim C7 -/

/-- The shapes on which `iter_option_rows` cannot raise: a dict payload
whose `"data"` field is falsy or a dict, and whose resulting `"table"`
field is falsy or a dict. -/
def shapeSafe (payload : JVal) : Bool :=
  match payload with
  | .obj pkvs =>
    match orElseFalsy (objGetD pkvs (str "data")) (.obj []) with
    | .obj dkvs => (orElseFalsy (objGetD dkvs (str "table")) (.obj [])).isObj
    | _ => false
  | _ => false

/-- C7 counterexample: the claim says row extraction is total on every
payload value; but on `{"data": "x"}` (a dict whose `data` field is a
truthy non-dict) the source evaluates `"x".get("table")` and raises
`AttributeError` — modelled as `none`. -/
theorem C7_counterexample :
    iter_option_rows (.obj [(str "data", .str (str "x"))]) = none := rfl

/-- C7 (amended): on every payload of safe shape — a dict whose `"data"`
field is absent, falsy, or a dict, and whose resulting `"table"` field is
absent, falsy, or a dict — `iter_option_rows` returns a list without
raising, whatever the `"rows"` field holds (absent, falsy, non-list, or
list).  On other shapes (non-dict payload, truthy non-dict `data` or
`table`) it raises `AttributeError`. -/
theorem C7_iter_total_on_safe (payload : JVal) (h : shapeSafe payload = true) :
    (iter_option_rows payload).isSome = true := by
  cases payload with
  | obj pkvs =>
    unfold shapeSafe at h
    unfold iter_option_rows
    cases hdata : orElseFalsy (objGetD pkvs (str "data")) (JVal.obj []) with
    | obj dkvs =>
      simp only [hdata] at h ⊢
      cases htab : orElseFalsy (objGetD dkvs (str "table")) (JVal.obj []) with
      | obj tkvs =>
        simp only [htab]
        cases orElseFalsy (objGetD tkvs (str "rows")) (JVal.arr []) <;> rfl
      | null => simp [htab, JVal.isObj] at h
      | bool b => simp [htab, JVal.isObj] at h
      | num n => simp [htab, JVal.isObj] at h
      | str s => simp [htab, JVal.isObj] at h
      | arr xs => simp [htab, JVal.isObj] at h
    | null => simp [hdata] at h
    | bool b => simp [hdata] at h
    | num n => simp [hdata] at h
    | str s => simp [hdata] at h
    | arr xs => simp [hdata] at h
  | null => exact absurd h (by simp [shapeSafe])
  | bool b => exact absurd h (by simp [shapeSafe])
  | num n => exact absurd h (by simp [shapeSafe])
  | str s => exact absurd h (by simp [shapeSafe])
  | arr xs => exact absurd h (by simp [shapeSafe])

/-- Witness for C7 (amended). -/
theorem C7_iter_total_on_safe_witness :
    (iter_option_rows (JVal.obj [(str "data", JVal.null)])).isSome = true :=
  C7_iter_total_on_safe (JVal.obj [(str "data", JVal.null)]) rfl

/-! ### Claim C3 -/

/-- First-seen-order de-duplication, stated directly: keep the head, drop
its later duplicates, recurse. -/
def dedupFirst : List Str → List Str
  | [] => []
  | x :: xs => x :: dedupFirst (xs.filter (fun y => !(y == x)))
termination_by l => l.length
decreasing_by simp only [List.length_cons]; exact Nat.lt_succ_of_le (List.length_filter_le _ _)

theorem dedupLoop_out (out seen : List Str) (xs : List Str) :
    dedupLoop out seen xs = out ++ dedupLoop [] seen xs := by
  induction xs generalizing out seen with
  | nil => simp [dedupLoop]
  | cons x xs ih =>
    by_cases hx : x ∈ seen
    · simp only [dedupLoop, if_pos hx]
      exact ih out seen
    · simp only [dedupLoop, if_neg hx, List.nil_append]
      rw [ih (out ++ [x]) (x :: seen), ih [x] (x :: seen)]
      simp

theorem dedupLoop_eq_dedupFirst (seen : List Str) (xs : List Str) :
    dedupLoop [] seen xs = dedupFirst (xs.filter (fun y => !(seen.contains y))) := by
  induction xs generalizing seen with
  | nil => simp [dedupLoop, dedupFirst]
  | cons x xs ih =>
    by_cases hx : x ∈ seen
    · have hc : seen.contains x = true := List.elem_eq_true_of_mem hx
      simp only [dedupLoop, if_pos hx, List.filter_cons, hc, Bool.not_true]
      exact ih seen
    · have hc : seen.contains x = false := by simpa using hx
      simp only [dedupLoop, if_neg hx, List.filter_cons, hc, Bool.not_false, if_pos,
        List.nil_append]
      rw [dedupLoop_out [x] (x :: seen) xs, ih (x :: seen)]
      simp only [dedupFirst, List.singleton_append, List.cons.injEq, true_and]
      rw [List.filter_filter]
      apply congrArg
      apply List.filter_congr
      intro y _
      simp [List.contains_cons, Bool.not_or, Bool.and_comm, Bool.beq_eq_decide_eq]

/-- C3 counterexample: the claim says the first candidate key holding a
list wins and later keys are ignored, which would give `["a"]` here; the
code accumulates over all candidate keys, yielding `["a", "b"]` with the
value under the later `"expirationDates"` key included. -/
theorem C3_counterexample :
    extract_expirations (.obj [(str "data", .obj
        [(str "expirations", .arr [.str (str "a")]),
         (str "expirationDates", .arr [.str (str "b")])])]) =
      some [str "a", str "b"] ∧
    (some [str "a", str "b"] : Option (List Str)) ≠ some [str "a"] :=
  ⟨rfl, by decide⟩

/-- C3 (amended): for every payload whose `"data"` member resolves to a
dict, the extraction concatenates the candidates contributed by ALL four
candidate keys in their fixed order (each key contributing its list
value, or its dict value's `"rows"` list), then removes duplicates
keeping first-seen order. -/
theorem C3_extract_all_keys (pkvs dkvs : List KV)
    (hdata : orElseFalsy (objGetD pkvs (str "data")) (.obj []) = .obj dkvs) :
    extract_expirations (.obj pkvs) =
      some (dedupFirst (exp_keys.foldr (fun key acc => candidatesOfKey dkvs key ++ acc) [])) := by
  have hfold : ∀ (keys : List Str) (acc : List Str),
      keys.foldl (fun a k => a ++ candidatesOfKey dkvs k) acc =
        acc ++ keys.foldr (fun key acc => candidatesOfKey dkvs key ++ acc) [] := by
    intro keys
    induction keys with
    | nil => intro acc; simp
    | cons k ks ih => intro acc; simp [List.foldl_cons, List.foldr_cons, ih]
  unfold extract_expirations
  simp only [hdata]
  rw [hfold exp_keys [], List.nil_append, dedupLoop_eq_dedupFirst]
  congr 1
  simp

/-- Witness for C3 (amended). -/
theorem C3_extract_all_keys_witness :
    extract_expirations (.obj [(str "data", .obj
        [(str "expirations", .arr [.str (str "a"), .str (str "b")]),
         (str "dates", .arr [.str (str "b"), .str (str "c")])])]) =
      some (dedupFirst (exp_keys.foldr (fun key acc =>
        candidatesOfKey [(str "expirations", .arr [.str (str "a"), .str (str "b")]),
                         (str "dates", .arr [.str (str "b"), .str (str "c")])] key ++ acc) [])) :=
  C3_extract_all_keys _ _ rfl

/-! ### Claim C4 -/

theorem objGetD_map_replace (d : List KV) (k : Str) (v : JVal) :
    hasKey d k = true →
    objGetD (d.map (fun p => if p.1 == k then (p.1, v) else p)) k = v := by
  induction d with
  | nil => intro h; exact absurd h (by simp [hasKey])
  | cons p d' ih =>
    obtain ⟨pk, pv⟩ := p
    intro h
    by_cases hp : (pk == k) = true
    · obtain rfl : pk = k := by simpa using hp
      simp [objGetD, List.find?_cons]
    · have h' : hasKey d' k = true := by
        have h2 : ((pk, pv).1 == k || d'.any fun p => p.1 == k) = true := h
        rw [show ((pk, pv).1 == k) = false by simpa using hp, Bool.false_or] at h2
        exact h2
      have hrec := ih h'
      unfold objGetD at hrec ⊢
      rw [List.map_cons, List.find?_cons, if_neg (by simpa using hp),
        show ((pk, pv).1 == k) = false from by simpa using hp]
      exact hrec

theorem objGetD_append_absent (d : List KV) (k : Str) (v : JVal) :
    hasKey d k = false → objGetD (d ++ [(k, v)]) k = v := by
  induction d with
  | nil => intro _; simp [objGetD, List.find?_cons]
  | cons p d' ih =>
    obtain ⟨pk, pv⟩ := p
    intro h
    have h2 : ((pk, pv).1 == k || d'.any fun p => p.1 == k) = false := h
    rw [Bool.or_eq_false_iff] at h2
    have hrec := ih h2.2
    unfold objGetD at hrec ⊢
    rw [List.cons_append, List.find?_cons, h2.1]
    exact hrec

theorem objGetD_dSet (d : List KV) (k : Str) (v : JVal) :
    objGetD (dSet d k v) k = v := by
  unfold dSet
  by_cases h : hasKey d k = true
  · rw [if_pos h]; exact objGetD_map_replace d k v h
  · rw [if_neg h]
    exact objGetD_append_absent d k v (by simpa using h)

theorem objGetD_mem {kvs : List KV} {k : Str} {v : JVal}
    (h : objGetD kvs k = v) (hne : v ≠ JVal.null) : ∃ p ∈ kvs, p.2 = v := by
  unfold objGetD at h
  cases hf : kvs.find? (fun p => p.1 == k) with
  | none => rw [hf] at h; exact absurd h.symm hne
  | some pr =>
    rw [hf] at h
    exact ⟨pr, List.mem_of_find?_eq_some hf, by simpa using h⟩

/-- The matcher declares a match exactly when the (lowercased) code is a
substring of the lowercased value of some string-valued field of the
dict — the symbol-like keys checked first by the source are themselves
fields, so the two passes together decide exactly this. -/
theorem match_contract_dict_iff (kvs : List KV) (code : Str) :
    match_contract_dict (.obj kvs) code = true ↔
      ∃ p ∈ kvs, ∃ s, p.2 = JVal.str s ∧
        pyContains (pyLower code) (pyLower s) = true := by
  unfold match_contract_dict
  rw [Bool.or_eq_true, List.any_eq_true, List.any_eq_true]
  constructor
  · rintro (⟨k, _, hk⟩ | ⟨p, hp, hmatch⟩)
    · revert hk
      cases hv : objGetD kvs k with
      | str v =>
        intro hk
        obtain ⟨p, hp, hpv⟩ := objGetD_mem hv (by simp)
        exact ⟨p, hp, v, hpv, hk⟩
      | null => intro hk; simp at hk
      | bool b => intro hk; simp at hk
      | num n => intro hk; simp at hk
      | arr xs => intro hk; simp at hk
      | obj o => intro hk; simp at hk
    · revert hmatch
      cases hv : p.2 with
      | str v => intro hmatch; exact ⟨p, hp, v, hv, hmatch⟩
      | null => intro hmatch; simp at hmatch
      | bool b => intro hmatch; simp at hmatch
      | num n => intro hmatch; simp at hmatch
      | arr xs => intro hmatch; simp at hmatch
      | obj o => intro hmatch; simp at hmatch
  · rintro ⟨p, hp, s, hs, hsub⟩
    right
    exact ⟨p, hp, by rw [hs]; exact hsub⟩

/-- The provider-A chain shape: `{"data": {"table": {"rows": rows}}}`. -/
def mkChainPayload (rows : List JVal) : JVal :=
  .obj [(str "data", .obj [(str "table", .obj [(str "rows", .arr rows)])])]

theorem iter_mkChainPayload (rows : List JVal) :
    iter_option_rows (mkChainPayload rows) = some rows := by
  cases rows <;> rfl

/-- C4: a provider-A payload with one row whose `call` sub-object has a
`symbol` field containing the code as a case-insensitive substring is
matched, the result is the normalized quote tagged with side `call`
(first two conjuncts); in general the matcher declares a match exactly
when the code is a case-insensitive substring of some string-valued
field (last conjunct, the containment stated for arbitrary dicts). -/
theorem C4_contract_matcher (code v : Str) (ckvs : List KV)
    (hsym : objGetD ckvs (str "symbol") = .str v)
    (hsub : pyContains (pyLower code) (pyLower v) = true) :
    (find_contract_in_payload (mkChainPayload [.obj [(str "call", .obj ckvs)]]) code =
      some (some (dSet (normalize_quote_fields ckvs) (str "type") (.str (str "call")))) ∧
     objGetD (dSet (normalize_quote_fields ckvs) (str "type") (.str (str "call")))
       (str "type") = .str (str "call")) ∧
    (∀ (kvs : List KV) (c : Str),
      match_contract_dict (.obj kvs) c = true ↔
        ∃ p ∈ kvs, ∃ s, p.2 = JVal.str s ∧
          pyContains (pyLower c) (pyLower s) = true) := by
  refine ⟨⟨?_, objGetD_dSet _ _ _⟩, match_contract_dict_iff⟩
  have hmatch : match_contract_dict (.obj ckvs) code = true := by
    rw [match_contract_dict_iff]
    obtain ⟨p, hp, hpv⟩ := objGetD_mem hsym (by simp)
    exact ⟨p, hp, v, hpv, hsub⟩
  have hstep : tryContainer (objGetD [(str "call", JVal.obj ckvs)] (str "call"))
      code (str "call")
      = some (dSet (normalize_quote_fields ckvs) (str "type") (.str (str "call"))) := by
    rw [show objGetD [(str "call", JVal.obj ckvs)] (str "call") = JVal.obj ckvs from rfl]
    simp only [tryContainer, hmatch, if_true]
  unfold find_contract_in_payload
  rw [iter_mkChainPayload]
  simp only [findInRows, hstep]

/-- Witness for C4: the spec's example — `call.symbol` is
`"AMD271217C00370000"` and the code `"271217c00370000"` matches with side
`call`. -/
theorem C4_contract_matcher_witness :
    find_contract_in_payload
        (mkChainPayload [.obj [(str "call",
          .obj [(str "symbol", .str (str "AMD271217C00370000"))])]])
        (str "271217c00370000") =
      some (some (dSet
        (normalize_quote_fields [(str "symbol", .str (str "AMD271217C00370000"))])
        (str "type") (.str (str "call")))) :=
  ((C4_contract_matcher (str "271217c00370000") (str "AMD271217C00370000")
    [(str "symbol", .str (str "AMD271217C00370000"))] rfl (by decide)).1).1

/-! ### Claim C5 -/

/-- C5: the Code Decoder (modelled from the spec, no decoder exists in the
sources).  First conjunct: decoding `"271217c00370000"` yields year 2027,
month 12, day 17, side CALL, and strike 370.000 (370000 thousandths,
i.e. the rational 370).  Second conjunct: for every 15-character string
matching `^\d{6}[cp]\d{8}$`, the first two digits are the year offset
from 2000, the next two the month, the next two the day, `c` decodes to
CALL and `p` to PUT, and the trailing 8 digits read as a decimal integer
give the strike in thousandths. -/
theorem C5_decoder :
    (decode_option_code (str "271217c00370000") =
        some ⟨2027, 12, 17, Side.CALL, 370000⟩ ∧
      ParsedCode.strike ⟨2027, 12, 17, Side.CALL, 370000⟩ = 370) ∧
    (∀ y1 y2 mo1 mo2 d1 d2 sc k1 k2 k3 k4 k5 k6 k7 k8 : Char,
      (isDigitChar y1 && isDigitChar y2 && isDigitChar mo1 && isDigitChar mo2 &&
        isDigitChar d1 && isDigitChar d2 &&
        isDigitChar k1 && isDigitChar k2 && isDigitChar k3 && isDigitChar k4 &&
        isDigitChar k5 && isDigitChar k6 && isDigitChar k7 && isDigitChar k8) = true →
      (sc == 'c' || sc == 'p') = true →
      decode_option_code [y1, y2, mo1, mo2, d1, d2, sc, k1, k2, k3, k4, k5, k6, k7, k8] =
        some ⟨2000 + (10 * digitVal y1 + digitVal y2),
              10 * digitVal mo1 + digitVal mo2,
              10 * digitVal d1 + digitVal d2,
              if sc == 'c' then Side.CALL else Side.PUT,
              10000000 * digitVal k1 + 1000000 * digitVal k2 + 100000 * digitVal k3 +
                10000 * digitVal k4 + 1000 * digitVal k5 + 100 * digitVal k6 +
                10 * digitVal k7 + digitVal k8⟩) := by
  constructor
  · constructor
    · decide
    · show ((370000 : Nat) : ℚ) / 1000 = 370
      norm_num
  · intro y1 y2 mo1 mo2 d1 d2 sc k1 k2 k3 k4 k5 k6 k7 k8 hd hs
    simp only [decode_option_code]
    rw [hd, hs, if_pos (show (true && true) = true from rfl)]
    simp only [Option.some.injEq, ParsedCode.mk.injEq, digitsToNat, List.foldl,
      eq_self_iff_true, and_true, true_and]
    omega

/-- Witness for C5: the general decoding rule applied to the example
code's characters. -/
theorem C5_decoder_witness :
    decode_option_code ['2', '7', '1', '2', '1', '7', 'c',
        '0', '0', '3', '7', '0', '0', '0', '0'] =
      some ⟨2000 + (10 * digitVal '2' + digitVal '7'),
            10 * digitVal '1' + digitVal '2',
            10 * digitVal '1' + digitVal '7',
            if 'c' == 'c' then Side.CALL else Side.PUT,
            10000000 * digitVal '0' + 1000000 * digitVal '0' + 100000 * digitVal '3' +
              10000 * digitVal '7' + 1000 * digitVal '0' + 100 * digitVal '0' +
              10 * digitVal '0' + digitVal '0'⟩ :=
  C5_decoder.2 '2' '7' '1' '2' '1' '7' 'c' '0' '0' '3' '7' '0' '0' '0' '0'
    (by decide) (by decide)

/-! ### Claims C9 and C10 -/

theorem collect_go_spec {α : Type} (feed : Nat → List α) (maxR : Nat) :
    ∀ (fuel page : Nat) (collected : List α),
      50 - page < fuel → 1 ≤ page → page ≤ 50 → collected.length ≤ maxR →
      (collect_go feed maxR collected page).2 ≤ 50 ∧
      (collect_go feed maxR collected page).1.length ≤ maxR ∧
      ((collect_go feed maxR collected page).1.length = maxR ∨
       (collect_go feed maxR collected page).2 = 50 ∨
       (1 ≤ (collect_go feed maxR collected page).2 ∧
        feed (collect_go feed maxR collected page).2 = [] ∧
        (collect_go feed maxR collected page).1.length < maxR)) := by
  intro fuel
  induction fuel with
  | zero => intro page collected h; omega
  | succ n ih =>
    intro page collected hfuel hpage1 hpage50 hlen
    rw [collect_go]
    by_cases hcond : collected.length < maxR
    · rw [if_pos hcond]
      by_cases hrows : (feed page).isEmpty = true
      · rw [if_pos hrows]
        exact ⟨hpage50, hlen,
          Or.inr (Or.inr ⟨hpage1, List.isEmpty_iff.mp hrows, hcond⟩)⟩
      · rw [if_neg hrows]
        have hlen2 : (collected ++ (feed page).take (maxR - collected.length)).length
            ≤ maxR := by
          rw [List.length_append, List.length_take]
          omega
        by_cases hcap : page + 1 > 50
        · rw [dif_pos hcap]
          have hp50 : page = 50 := by omega
          exact ⟨hpage50, hlen2, Or.inr (Or.inl hp50)⟩
        · rw [dif_neg hcap]
          exact ih (page + 1) _ (by omega) (by omega) (by omega) hlen2
    · rw [if_neg hcond]
      have heq : collected.length = maxR := by omega
      exact ⟨by omega, le_of_eq heq, Or.inl heq⟩

/-- C9: for every feed oracle and requested count, the collection loop
fetches at most 50 pages (never a page beyond the 50th), and when it
stops one of the three stop conditions holds: the requested count is
reached, the 50-page ceiling was hit, or the last fetched page yielded
zero parseable rows while the count was still short.  The second
component of `collect_reviews` is the number of pages fetched (pages are
fetched consecutively from 1). -/
theorem C9_collect_stop {α : Type} (feed : Nat → List α) (max_reviews : Nat) :
    (collect_reviews feed max_reviews).2 ≤ 50 ∧
      ((collect_reviews feed max_reviews).1.length = max_reviews ∨
       (collect_reviews feed max_reviews).2 = 50 ∨
       (1 ≤ (collect_reviews feed max_reviews).2 ∧
        feed (collect_reviews feed max_reviews).2 = [] ∧
        (collect_reviews feed max_reviews).1.length < max_reviews)) := by
  have h := collect_go_spec feed max_reviews 51 1 [] (by omega) (by omega) (by omega)
    (by simp)
  exact ⟨h.1, h.2.2⟩

/-- C10: for every feed oracle and every requested count of at least 1,
the collector returns at most `max_reviews` rows — rows beyond the
requested count on the final fetched page are discarded by the inner
append loop. -/
theorem C10_collect_at_most {α : Type} (feed : Nat → List α) (max_reviews : Nat)
    (_hmax : 1 ≤ max_reviews) :
    (collect_reviews feed max_reviews).1.length ≤ max_reviews :=
  (collect_go_spec feed max_reviews 51 1 [] (by omega) (by omega) (by omega)
    (by simp)).2.1

/-- Witness for C10. -/
theorem C10_collect_at_most_witness :
    1 ≤ 1 ∧ (collect_reviews (fun _ => [0]) 1).1.length ≤ 1 :=
  ⟨le_rfl, C10_collect_at_most (fun _ => [0]) 1 le_rfl⟩

end EdusonApstore
